import Mathlib

/-!
Verification of the File-Browser repository (`main.go`) against its
specification.  The program is a Go HTTP file browser confined to one root
directory.  We shallowly embed the path-confinement and listing engine:
strings are `List Char` (Go strings are byte sequences; all paths here are
treated per code point, which agrees with Go's byte order on ASCII and on
valid UTF-8), the Unix path separator is `'/'` (the deployment target is
Linux/distroless, so `os.PathSeparator = '/'` and `filepath.ToSlash` is the
identity), and filesystem access is an explicit oracle argument.
-/

namespace FileBrowser

/-- Paths and strings of the embedded program. -/
abbrev Str := List Char

/-- Embeds Go `strings.Split(s, "/")`: splits around every `'/'`;
`Split("", "/") = [""]`, and leading/trailing/doubled separators produce
empty chunks, exactly as in Go. -/
def splitSlash : Str → List Str
  | [] => [[]]
  | c :: rest =>
    if c = '/' then [] :: splitSlash rest
    else
      match splitSlash rest with
      | [] => [[c]]
      | s :: ss => (c :: s) :: ss

/-- Embeds Go `strings.Join(l, "/")`, the inverse direction of
`splitSlash`; used to assemble cleaned paths from their segments. -/
def joinSlash : List Str → Str
  | [] => []
  | [s] => s
  | s :: ss => s ++ '/' :: joinSlash ss

/-- Embeds Go `strings.ToLower` (code-point lowering; identical to Go's on
ASCII, which is all the comparisons in `main.go` rely on). -/
def toLowerStr (s : Str) : Str := s.map Char.toLower

/-- Embeds Go `strings.Contains(s, sub)`: `sub` occurs contiguously in `s`. -/
def strContains (s sub : Str) : Bool := decide (sub <:+: s)

/-- Embeds Go string comparison `<` (lexicographic; bytewise in Go, which
agrees with code-point order on valid UTF-8). -/
def lexLess : Str → Str → Bool
  | [], [] => false
  | [], _ :: _ => true
  | _ :: _, [] => false
  | a :: as, b :: bs => if a < b then true else if b < a then false else lexLess as bs

/-- Embeds Go `filepath.IsAbs` on Unix: `strings.HasPrefix(path, "/")`. -/
def isAbsPath (p : Str) : Bool := List.isPrefixOf ['/'] p

/-- Embeds Go `strings.TrimPrefix(p, "/")`: removes one leading `'/'` if
present (from `listHandler` line 105 and `downloadHandler` line 178). -/
def trimPrefixSlash : Str → Str
  | '/' :: rest => rest
  | p => p

/-- Embeds Go `strings.TrimSpace` (line 101); whitespace is modelled by
`Char.isWhitespace`, which agrees with Go on the ASCII whitespace that can
appear in query strings. -/
def trimSpace (s : Str) : Str :=
  ((s.dropWhile Char.isWhitespace).reverse.dropWhile Char.isWhitespace).reverse

/-- One step of Go `path/filepath.Clean`'s element loop, reformulated over
the element stack (most recent element first): empty and `"."` elements are
dropped; `".."` pops the latest real element, is dropped at the root of a
rooted path, and is kept when there is nothing left to pop in a relative
path; every other element is kept. -/
def cleanStep (rooted : Bool) (stack : List Str) (seg : Str) : List Str :=
  if seg = [] ∨ seg = ['.'] then stack
  else if seg = ['.', '.'] then
    match stack with
    | [] => if rooted then [] else [['.', '.']]
    | top :: rest => if top = ['.', '.'] then ['.', '.'] :: top :: rest else rest
  else seg :: stack

/-- The elements `Clean` keeps outright: non-empty and not `"."` (used to
characterize `cleanStep` runs on inputs without `".."` elements). -/
def keepSeg (s : Str) : Bool := !(decide (s = []) || decide (s = ['.']))

/-- Embeds Go `path/filepath.Clean` for Unix paths: lexical normalization —
collapse repeated separators, drop `.` elements, resolve `..` elements
against preceding ones (dropping leading `..` only in rooted paths), return
`"."` for an empty relative result and `"/"`-rooted output for rooted
input.  `Clean("") = "."`. -/
def goClean (p : Str) : Str :=
  let rooted := isAbsPath p
  let body := joinSlash ((splitSlash p).foldl (cleanStep rooted) []).reverse
  if rooted then '/' :: body
  else if body = [] then ['.'] else body

/-- Embeds Go `filepath.Join(a, b)`: non-empty elements are joined with the
separator and the result is `Clean`ed; if every element is empty the result
is `""`. -/
def goJoin (a b : Str) : Str :=
  if a = [] then (if b = [] then [] else goClean b)
  else if b = [] then goClean a
  else goClean (a ++ '/' :: b)

/-- Embeds Go `filepath.Abs`: an absolute path is `Clean`ed, a relative one
is joined onto the working directory (`os.Getwd`, passed explicitly as
`cwd`). -/
def goAbs (cwd p : Str) : Str :=
  if isAbsPath p then goClean p else goJoin cwd p

/-- Embeds Go `filepath.Base`: `""` gives `"."`; otherwise trailing
separators are removed, an all-separator path gives `"/"`, and otherwise
the final element is returned. -/
def goBase (p : Str) : Str :=
  if p = [] then ['.']
  else
    let q := (p.reverse.dropWhile (· = '/')).reverse
    if q = [] then ['/']
    else (q.reverse.takeWhile (· ≠ '/')).reverse

/-- Embeds `isWithin` (main.go lines 238-251): both the candidate and the
root are made absolute and `Clean`ed, and the candidate is accepted when
`rootAbs ++ "/"` is a string prefix of `pAbs ++ "/"` or the two are equal.
`filepath.Abs`'s working directory is the explicit `cwd`. -/
def isWithin (cwd p root : Str) : Bool :=
  let pAbs := goClean (goAbs cwd p)
  let rootAbs := goClean (goAbs cwd root)
  List.isPrefixOf (rootAbs ++ ['/']) (pAbs ++ ['/']) || pAbs == rootAbs

/-- Embeds the path-resolution prelude of `listHandler` (lines 105-113):
trim one leading separator from the `path` query value, `Clean` it, map the
`"."` result to the empty (root) path, join onto the root, and reject the
request unless `isWithin` accepts the joined path.  Returns the surviving
relative path together with the joined absolute path. -/
def listResolve (cwd root p : Str) : Option (Str × Str) :=
  let rel0 := goClean (trimPrefixSlash p)
  let rel := if rel0 = ['.'] then [] else rel0
  let abs := goJoin root rel
  if isWithin cwd abs root then some (rel, abs) else none

/-- Mirrors the `fileRow` struct of main.go (lines 29-35).  `SizeBytes` and
`ModTime` (Unix nanoseconds; `time.Time.Before` is `<` on this value) are
integers. -/
structure fileRow where
  Name : Str
  RelPath : Str
  IsDir : Bool
  SizeBytes : Int
  ModTime : Int
deriving DecidableEq, Repr

/-- One child reported by `os.ReadDir`: its name, directory flag, and the
result of `e.Info()` — `none` models a failing `Info` call (line 123-126),
`some (size, modTime)` a successful one. -/
structure dirEntry where
  name : Str
  isDir : Bool
  info : Option (Int × Int)
deriving DecidableEq, Repr

/-- The error with which `os.ReadDir` itself can fail at the directory
(path does not exist, is not a directory, permission, other I/O). -/
inductive readDirErr where
  | notExist
  | notDir
  | permission
  | ioError
deriving DecidableEq, Repr

/-- Builds one `fileRow` from a child whose `Info()` succeeded
(lines 127-133): `RelPath = filepath.ToSlash(filepath.Join(rel, name))`,
and `ToSlash` is the identity on Unix. -/
def mkRow (rel : Str) (e : dirEntry) (sz mt : Int) : fileRow :=
  ⟨e.name, goJoin rel e.name, e.isDir, sz, mt⟩

/-- Embeds the row-building loop of `listHandler` (lines 121-137): children
whose `Info()` fails are skipped; the rest become rows, kept when the query
is empty or the lowercased name contains the lowercased query
(`q == "" || strings.Contains(strings.ToLower(row.Name), strings.ToLower(q))`). -/
def buildRows (rel q : Str) : List dirEntry → List fileRow
  | [] => []
  | e :: es =>
    match e.info with
    | none => buildRows rel q es
    | some (sz, mt) =>
      let row := mkRow rel e sz mt
      if decide (q = []) || strContains (toLowerStr row.Name) (toLowerStr q)
      then row :: buildRows rel q es
      else buildRows rel q es

/-- Embeds the comparator closure passed to `sort.Slice` (lines 140-162):
`size` and `name` order directories first then compare within the group,
`mod` compares timestamps only, and `desc` returns the negation of the
ascending verdict. -/
def rowLess (sortBy order : Str) (a b : fileRow) : Bool :=
  let less :=
    if sortBy = "size".data then
      if a.IsDir != b.IsDir then a.IsDir && !b.IsDir
      else decide (a.SizeBytes < b.SizeBytes)
    else if sortBy = "mod".data then decide (a.ModTime < b.ModTime)
    else
      if a.IsDir != b.IsDir then a.IsDir && !b.IsDir
      else lexLess (toLowerStr a.Name) (toLowerStr b.Name)
  if order = "desc".data then !less else less

/-- Insertion of one row into a list sorted by the strict comparator
`less`: the row goes in front of the first element it compares below. -/
def insertSorted (less : fileRow → fileRow → Bool) (r : fileRow) : List fileRow → List fileRow
  | [] => [r]
  | x :: xs => if less r x then r :: x :: xs else x :: insertSorted less r xs

/-- Models `sort.Slice(rows, less)` (line 140) by insertion sort.
`sort.Slice` fixes no algorithm (it is an unstable pattern-defeating
quicksort in the Go runtime), but whenever `less` is a strict total order
on the elements at hand — as in every input considered below — the sorted
permutation is unique, so any comparison sort, this one included, yields
exactly the slice the program produces. -/
def sortRows (less : fileRow → fileRow → Bool) (rows : List fileRow) : List fileRow :=
  rows.foldr (insertSorted less) []

/-- Embeds `pick`'s option scan (lines 221-229): the input is lowercased
and returned if it equals one of the options. -/
def pickAux (lv : Str) : List Str → Option Str
  | [] => none
  | o :: os => if lv = o then some lv else pickAux lv os

/-- Embeds `pick(v, opts...)` (lines 221-229): lowercase `v`, return it on
a match, and fall back to the first option otherwise (the call sites pass
the non-empty lists `name/size/mod` and `asc/desc`). -/
def pick (v : Str) (opts : List Str) : Str :=
  match pickAux (toLowerStr v) opts with
  | some r => r
  | none => opts.headD []

/-- Mirrors the `crumb` struct (lines 37-40).  The source stores a rendered
link `"/?" + url.Values(path: acc).Encode()`; we model the navigation path
`acc` itself — the query-string wrapping is presentation plumbing outside
the core (spec §6, `navigationPath`). -/
structure crumb where
  Name : Str
  Path : Str
deriving DecidableEq, Repr

/-- The accumulator loop of `crumbsFor` (lines 204-217): skip empty and
`"."` parts, extend the accumulated path, and emit one crumb per remaining
part. -/
def crumbsForAux (acc : Str) : List Str → List crumb
  | [] => []
  | p :: rest =>
    if p = [] ∨ p = ['.'] then crumbsForAux acc rest
    else
      let acc2 := if acc = [] then p else acc ++ '/' :: p
      ⟨p, acc2⟩ :: crumbsForAux acc2 rest

/-- Embeds `crumbsFor` (lines 197-219): the empty relative path yields no
crumbs; otherwise the path (already slash-separated; `ToSlash` is the
identity on Unix) is split on `'/'` and folded by `crumbsForAux`. -/
def crumbsFor (rel : Str) : List crumb :=
  if rel = [] then [] else crumbsForAux [] (splitSlash rel)

/-- The observable outcome of `listHandler`: HTTP 400 for a rejected path,
HTTP 500 carrying the `os.ReadDir` error (lines 115-119), or the rendered
`pageData` (lines 164-171). -/
inductive listOutcome where
  | badRequest
  | serverError (e : readDirErr)
  | ok (rows : List fileRow) (path q sortKey order : Str) (crumbs : List crumb)
deriving DecidableEq, Repr

/-- Embeds `listHandler` (lines 100-175) over an explicit `readDir` oracle
standing for `os.ReadDir`. -/
def listHandler (cwd root : Str) (readDir : Str → Except readDirErr (List dirEntry))
    (pathQ qRaw sortQ orderQ : Str) : listOutcome :=
  let q := trimSpace qRaw
  let sortBy := pick sortQ ["name".data, "size".data, "mod".data]
  let order := pick orderQ ["asc".data, "desc".data]
  match listResolve cwd root pathQ with
  | none => .badRequest
  | some (rel, abs) =>
    match readDir abs with
    | .error e => .serverError e
    | .ok entries =>
      let sorted := sortRows (rowLess sortBy order) (buildRows rel q entries)
      .ok sorted rel q sortBy order (crumbsFor rel)

/-- HTTP status surfaced to the caller for each listing outcome. -/
def statusOf : listOutcome → Nat
  | .badRequest => 400
  | .serverError _ => 500
  | .ok _ _ _ _ _ _ => 200

/-- What `os.Stat` reports for the download target; `none` models a
failing `Stat`. -/
structure statInfo where
  isDir : Bool
deriving DecidableEq, Repr

/-- The observable outcome of `downloadHandler`: HTTP 400 for a rejected
path, `http.NotFound` when `Stat` fails, a 303 redirect to the listing of
`rel` (the source renders it as `"/?" + url.Values(path: rel).Encode()`)
when the target is a directory, or the streamed file with its
content-disposition filename. -/
inductive dlOutcome where
  | badRequest
  | notFound
  | redirectToListing (rel : Str)
  | serveFile (abs filename : Str)
deriving DecidableEq, Repr

/-- Embeds `downloadHandler` (lines 177-195) over an explicit `stat`
oracle standing for `os.Stat`.  Note: unlike `listHandler`, the source
does not map a `"."` relative path to `""` here. -/
def downloadHandler (cwd root : Str) (stat : Str → Option statInfo) (pathQ : Str) : dlOutcome :=
  let rel := goClean (trimPrefixSlash pathQ)
  let abs := goJoin root rel
  if isWithin cwd abs root then
    match stat abs with
    | none => .notFound
    | some info =>
      if info.isDir then .redirectToListing rel
      else .serveFile abs (goBase abs)
  else .badRequest

/-- A well-formed directory-child name as the OS delivers it: non-empty,
not `"."` or `".."`, and free of the separator.  `os.ReadDir` never
reports anything else. -/
def properSeg (n : Str) : Prop :=
  n ≠ [] ∧ n ≠ ['.'] ∧ n ≠ ['.', '.'] ∧ '/' ∉ n

/-- Path `p` contains no `".."` segment (reading segments as the chunks
between separators). -/
def noDotDot (p : Str) : Prop := ['.', '.'] ∉ splitSlash p

instance (n : Str) : Decidable (properSeg n) := by
  unfold properSeg
  infer_instance

instance (p : Str) : Decidable (noDotDot p) := by
  unfold noDotDot
  infer_instance

/-- Following the claim's words for C4: an entry is kept exactly when the
query is empty or the lowercased name contains the lowercased query as a
substring. -/
def specKeep (q name : Str) : Bool :=
  decide (q = []) || strContains (toLowerStr name) (toLowerStr q)

/-- Following the claim's words for C5: the i-th navigation path is the
separator-join of the first `i+1` segments. -/
def specPaths (segs : List Str) : List Str :=
  (List.range segs.length).map (fun i => joinSlash (segs.take (i + 1)))


/-- Go `strings.Split` never returns an empty list. -/
theorem splitSlash_ne_nil (p : Str) : splitSlash p ≠ [] := by
  induction p with
  | nil => simp [splitSlash]
  | cons c rest ih =>
    simp only [splitSlash]
    split
    · simp
    · cases h : splitSlash rest <;> simp

theorem splitSlash_slash_cons (rest : Str) : splitSlash ('/' :: rest) = [] :: splitSlash rest := by
  simp [splitSlash]

theorem splitSlash_cons_of_ne (c : Char) (rest : Str) (hc : c ≠ '/') (s0 : Str) (ss : List Str)
    (h : splitSlash rest = s0 :: ss) : splitSlash (c :: rest) = (c :: s0) :: ss := by
  simp only [splitSlash, if_neg hc, h]

/-- No chunk produced by `splitSlash` contains the separator. -/
theorem mem_splitSlash_no_slash : ∀ (p s : Str), s ∈ splitSlash p → '/' ∉ s := by
  intro p
  induction p with
  | nil =>
    intro s hs
    have h : s = [] := by simpa [splitSlash] using hs
    subst h
    simp
  | cons c rest ih =>
    intro s hs
    by_cases hc : c = '/'
    · subst hc
      rw [splitSlash_slash_cons] at hs
      rcases List.mem_cons.mp hs with rfl | h
      · simp
      · exact ih s h
    · obtain ⟨s0, ss, h2⟩ := List.exists_cons_of_ne_nil (splitSlash_ne_nil rest)
      rw [splitSlash_cons_of_ne c rest hc s0 ss h2] at hs
      rcases List.mem_cons.mp hs with rfl | h
      · intro hm
        rcases List.mem_cons.mp hm with h' | h'
        · exact hc h'.symm
        · exact ih s0 (by rw [h2]; simp) h'
      · exact ih s (by rw [h2]; simp [h])

/-- Splitting distributes over an explicit separator. -/
theorem splitSlash_append_slash : ∀ (a b : Str), splitSlash (a ++ '/' :: b) = splitSlash a ++ splitSlash b := by
  intro a b
  induction a with
  | nil => simp [splitSlash]
  | cons c a' ih =>
    by_cases hc : c = '/'
    · subst hc
      rw [List.cons_append, splitSlash_slash_cons, splitSlash_slash_cons, ih, List.cons_append]
    · obtain ⟨s, ss, h⟩ := List.exists_cons_of_ne_nil (splitSlash_ne_nil a')
      have h' : splitSlash (a' ++ '/' :: b) = s :: (ss ++ splitSlash b) := by
        rw [ih, h]
        rfl
      rw [List.cons_append, splitSlash_cons_of_ne c _ hc _ _ h',
        splitSlash_cons_of_ne c _ hc _ _ h, List.cons_append]

/-- A separator-free string is a single chunk. -/
theorem splitSlash_eq_single : ∀ (n : Str), '/' ∉ n → splitSlash n = [n] := by
  intro n
  induction n with
  | nil => intro; rfl
  | cons c rest ih =>
    intro h
    have hc : c ≠ '/' := fun e => h (by simp [e])
    have h2 : '/' ∉ rest := fun hm => h (List.mem_cons_of_mem _ hm)
    exact splitSlash_cons_of_ne c rest hc rest [] (ih h2)

theorem joinSlash_cons (s : Str) (t : List Str) (h : t ≠ []) :
    joinSlash (s :: t) = s ++ '/' :: joinSlash t := by
  cases t with
  | nil => exact absurd rfl h
  | cons x xs => rfl

theorem joinSlash_ne_nil (s : Str) (ss : List Str) (h : s ≠ []) : joinSlash (s :: ss) ≠ [] := by
  obtain ⟨c, s', rfl⟩ := List.exists_cons_of_ne_nil h
  cases ss with
  | nil => simp [joinSlash]
  | cons x xs => simp [joinSlash]

/-- Round trip: joining separator-free non-empty chunks and re-splitting
recovers them. -/
theorem splitSlash_joinSlash : ∀ (l : List Str), l ≠ [] → (∀ s ∈ l, '/' ∉ s) →
    splitSlash (joinSlash l) = l := by
  intro l
  induction l with
  | nil => intro h; exact absurd rfl h
  | cons s ss ih =>
    intro _ hmem
    cases ss with
    | nil => exact splitSlash_eq_single s (hmem s (by simp))
    | cons x xs =>
      rw [joinSlash_cons s (x :: xs) (by simp), splitSlash_append_slash,
        splitSlash_eq_single s (hmem s (by simp)),
        ih (by simp) (fun t ht => hmem t (List.mem_cons_of_mem _ ht))]
      rfl

/-- A prefix test with the separator appended to both sides is equality or
a prefix test against the bare longer string. -/
theorem append_sep_cases {r p : Str} {c : Char} (h : (r ++ [c]) <+: (p ++ [c])) :
    p = r ∨ (r ++ [c]) <+: p := by
  obtain ⟨t, ht⟩ := h
  rcases t.eq_nil_or_concat with rfl | ⟨t', a, rfl⟩
  · left
    have h2 := List.append_inj' (by simpa using ht) (by rfl : ([c] : Str).length = [c].length)
    exact h2.1.symm
  · right
    rw [List.concat_eq_append, ← List.append_assoc] at ht
    have h2 := List.append_inj' ht (by rfl : ([a] : Str).length = [c].length)
    exact ⟨t', h2.1⟩

/-- When no element is `".."`, `cleanStep` only skips or pushes, so a fold
is push-down of the kept elements. -/
theorem foldl_cleanStep_no_dotdot (rooted : Bool) : ∀ (segs : List Str) (stack : List Str),
    (∀ s ∈ segs, s ≠ ['.', '.']) →
    segs.foldl (cleanStep rooted) stack = (segs.filter keepSeg).reverse ++ stack := by
  intro segs
  induction segs with
  | nil => intro stack _; simp
  | cons s ss ih =>
    intro stack h
    have hs := h s (by simp)
    have hss : ∀ t ∈ ss, t ≠ ['.', '.'] := fun t ht => h t (List.mem_cons_of_mem _ ht)
    by_cases hk : s = [] ∨ s = ['.']
    · have hstep : cleanStep rooted stack s = stack := by simp [cleanStep, hk]
      have hfil : keepSeg s = false := by
        rcases hk with h' | h' <;> simp [keepSeg, h']
      simp [List.foldl_cons, hstep, List.filter_cons, hfil, ih _ hss]
    · have hstep : cleanStep rooted stack s = s :: stack := by
        simp only [cleanStep, if_neg hk, if_neg hs]
      have hfil : keepSeg s = true := by
        push_neg at hk
        simp [keepSeg, hk.1, hk.2]
      rw [List.foldl_cons, hstep, ih _ hss, List.filter_cons, hfil]
      simp

/-- On a relative path without `".."` elements, `goClean` joins the kept
elements (or returns `"."` when none are left). -/
theorem goClean_of_not_rooted (p : Str) (hroot : isAbsPath p = false)
    (hdd : ∀ s ∈ splitSlash p, s ≠ ['.', '.']) :
    goClean p = (if (splitSlash p).filter keepSeg = [] then ['.']
                 else joinSlash ((splitSlash p).filter keepSeg)) := by
  simp only [goClean, hroot, foldl_cleanStep_no_dotdot false _ [] hdd,
    List.append_nil, List.reverse_reverse, Bool.false_eq_true, if_false]
  by_cases hk : (splitSlash p).filter keepSeg = []
  · simp [hk, joinSlash]
  · rw [if_neg hk]
    have hne : joinSlash ((splitSlash p).filter keepSeg) ≠ [] := by
      obtain ⟨s, ss, h⟩ := List.exists_cons_of_ne_nil hk
      rw [h]
      refine joinSlash_ne_nil s ss ?_
      have hmem : s ∈ (splitSlash p).filter keepSeg := by rw [h]; simp
      have hks := List.of_mem_filter hmem
      intro he
      subst he
      simp [keepSeg] at hks
    simp [hne]

theorem isAbsPath_cons (c : Char) (l : Str) : isAbsPath (c :: l) = ('/' == c) := by
  simp [isAbsPath, List.isPrefixOf]

theorem isAbsPath_joinSlash (l : List Str) (hne : l ≠ []) (hgood : ∀ s ∈ l, s ≠ [] ∧ '/' ∉ s) :
    isAbsPath (joinSlash l) = false := by
  obtain ⟨g, gs, rfl⟩ := List.exists_cons_of_ne_nil hne
  have hg := hgood g (by simp)
  obtain ⟨c, g', rfl⟩ := List.exists_cons_of_ne_nil hg.1
  have hc : ('/' == c) = false := beq_eq_false_iff_ne.mpr (fun e => hg.2 (by simp [← e]))
  cases gs with
  | nil => rw [joinSlash, isAbsPath_cons, hc]
  | cons x xs =>
    rw [joinSlash_cons _ _ (by simp), List.cons_append, isAbsPath_cons, hc]

/-- The structural facts about `goClean` of a relative, `".."`-free path
with at least one kept element. -/
theorem goClean_good (p : Str) (hroot : isAbsPath p = false)
    (hdd : ∀ s ∈ splitSlash p, s ≠ ['.', '.'])
    (hkept : (splitSlash p).filter keepSeg ≠ []) :
    goClean p = joinSlash ((splitSlash p).filter keepSeg) ∧
    isAbsPath (goClean p) = false ∧
    splitSlash (goClean p) = (splitSlash p).filter keepSeg := by
  have heq := goClean_of_not_rooted p hroot hdd
  rw [if_neg hkept] at heq
  have hgood : ∀ s ∈ (splitSlash p).filter keepSeg, s ≠ [] ∧ '/' ∉ s := by
    intro s hs
    have hmem := List.mem_of_mem_filter hs
    have hk := List.of_mem_filter hs
    refine ⟨?_, mem_splitSlash_no_slash p s hmem⟩
    intro he
    subst he
    simp [keepSeg] at hk
  refine ⟨heq, ?_, ?_⟩
  · rw [heq]
    exact isAbsPath_joinSlash _ hkept hgood
  · rw [heq]
    exact splitSlash_joinSlash _ hkept (fun s hs => (hgood s hs).2)

/-- Joining a proper directory-entry name below a relative `".."`-free
path keeps the result relative and `".."`-free. -/
theorem goJoin_seg_good (rel name : Str) (hrel : isAbsPath rel = false) (hdd : noDotDot rel)
    (hname : properSeg name) :
    isAbsPath (goJoin rel name) = false ∧ noDotDot (goJoin rel name) := by
  obtain ⟨hn0, hn1, hn2, hn3⟩ := hname
  have hkeptname : keepSeg name = true := by simp [keepSeg, hn0, hn1]
  by_cases hrelnil : rel = []
  · subst hrelnil
    have h1 : goJoin [] name = goClean name := by simp [goJoin, hn0]
    have hsplit : splitSlash name = [name] := splitSlash_eq_single name hn3
    have habs : isAbsPath name = false := by
      obtain ⟨c, n', rfl⟩ := List.exists_cons_of_ne_nil hn0
      rw [isAbsPath_cons]
      exact beq_eq_false_iff_ne.mpr (fun e => hn3 (by simp [← e]))
    have hdd2 : ∀ s ∈ splitSlash name, s ≠ ['.', '.'] := by
      rw [hsplit]
      simpa using hn2
    have hkept : (splitSlash name).filter keepSeg ≠ [] := by
      rw [hsplit]
      simp [List.filter_cons, hkeptname]
    obtain ⟨_, habs2, hsplit2⟩ := goClean_good name habs hdd2 hkept
    rw [h1]
    refine ⟨habs2, ?_⟩
    unfold noDotDot
    rw [hsplit2, hsplit]
    intro hmem
    have hm := List.mem_of_mem_filter hmem
    simp at hm
    exact hn2 hm.symm
  · have h1 : goJoin rel name = goClean (rel ++ '/' :: name) := by simp [goJoin, hrelnil, hn0]
    have hsplit : splitSlash (rel ++ '/' :: name) = splitSlash rel ++ [name] := by
      rw [splitSlash_append_slash, splitSlash_eq_single name hn3]
    have habs : isAbsPath (rel ++ '/' :: name) = false := by
      obtain ⟨c, r', rfl⟩ := List.exists_cons_of_ne_nil hrelnil
      rw [List.cons_append, isAbsPath_cons]
      rw [isAbsPath_cons] at hrel
      exact hrel
    have hdd2 : ∀ s ∈ splitSlash (rel ++ '/' :: name), s ≠ ['.', '.'] := by
      rw [hsplit]
      intro s hs
      rcases List.mem_append.mp hs with h | h
      · intro he
        subst he
        exact hdd h
      · simp at h
        subst h
        exact hn2
    have hkept : (splitSlash (rel ++ '/' :: name)).filter keepSeg ≠ [] := by
      rw [hsplit, List.filter_append]
      simp [List.filter_cons, hkeptname]
    obtain ⟨_, habs2, hsplit2⟩ := goClean_good _ habs hdd2 hkept
    rw [h1]
    refine ⟨habs2, ?_⟩
    unfold noDotDot
    rw [hsplit2, hsplit]
    intro hmem
    have hm := List.mem_of_mem_filter hmem
    rcases List.mem_append.mp hm with h | h
    · exact hdd h
    · simp at h
      exact hn2 h.symm

theorem specPaths_cons (s : Str) (l : List Str) :
    specPaths (s :: l) = s :: (specPaths l).map (fun q => s ++ '/' :: q) := by
  unfold specPaths
  rw [List.length_cons, List.range_succ_eq_map, List.map_cons]
  congr 1
  rw [List.map_map, List.map_map]
  apply List.map_congr_left
  intro i hi
  have hlt : i < l.length := List.mem_range.mp hi
  have hne : l.take (i + 1) ≠ [] := by
    cases l with
    | nil => exact absurd hlt (by simp)
    | cons x xs => simp
  simp only [Function.comp_apply, Nat.succ_eq_add_one]
  rw [List.take_succ_cons, joinSlash_cons _ _ hne]

theorem crumbsForAux_spec : ∀ (parts : List Str) (acc : Str), acc ≠ [] →
    (∀ s ∈ parts, s ≠ [] ∧ s ≠ ['.']) →
    (crumbsForAux acc parts).map crumb.Name = parts ∧
    (crumbsForAux acc parts).map crumb.Path = (specPaths parts).map (fun q => acc ++ '/' :: q) := by
  intro parts
  induction parts with
  | nil => intro acc _ _; simp [crumbsForAux, specPaths]
  | cons p rest ih =>
    intro acc hacc hparts
    have hp := hparts p (by simp)
    have hrest : ∀ s ∈ rest, s ≠ [] ∧ s ≠ ['.'] :=
      fun s hs => hparts s (List.mem_cons_of_mem _ hs)
    have hcond : ¬(p = [] ∨ p = ['.']) := by
      rintro (h | h)
      · exact hp.1 h
      · exact hp.2 h
    obtain ⟨ihn, ihp⟩ := ih (acc ++ '/' :: p) (by simp) hrest
    have hstep : crumbsForAux acc (p :: rest) =
        ⟨p, acc ++ '/' :: p⟩ :: crumbsForAux (acc ++ '/' :: p) rest := by
      simp only [crumbsForAux, if_neg hcond, if_neg hacc]
    rw [hstep]
    constructor
    · simp [ihn]
    · simp only [List.map_cons, ihp, specPaths_cons, List.map_map]
      congr 1
      apply List.map_congr_left
      intro q _
      simp [List.append_assoc]

theorem pickAux_eq_none : ∀ (lv : Str) (opts : List Str), lv ∉ opts → pickAux lv opts = none := by
  intro lv opts
  induction opts with
  | nil => intro; rfl
  | cons o os ih =>
    intro h
    have h1 : lv ≠ o := fun e => h (by simp [e])
    have h2 : lv ∉ os := fun hm => h (List.mem_cons_of_mem _ hm)
    simp only [pickAux, if_neg h1, ih h2]

theorem pickAux_eq_some_self : ∀ (lv : Str) (opts : List Str), lv ∈ opts → pickAux lv opts = some lv := by
  intro lv opts
  induction opts with
  | nil => intro h; exact absurd h (by simp)
  | cons o os ih =>
    intro h
    by_cases h1 : lv = o
    · simp [pickAux, h1]
    · have h2 : lv ∈ os := by
        rcases List.mem_cons.mp h with h' | h'
        · exact absurd h' h1
        · exact h'
      simp [pickAux, h1, ih h2]

theorem pick_of_mem (v : Str) (opts : List Str) (h : toLowerStr v ∈ opts) :
    pick v opts = toLowerStr v := by
  simp [pick, pickAux_eq_some_self _ _ h]

theorem pick_of_not_mem (v : Str) (opts : List Str) (h : toLowerStr v ∉ opts) :
    pick v opts = opts.headD [] := by
  simp [pick, pickAux_eq_none _ _ h]

theorem pick_mem (v : Str) (opts : List Str) (h : opts ≠ []) : pick v opts ∈ opts := by
  by_cases hm : toLowerStr v ∈ opts
  · rw [pick_of_mem v opts hm]
    exact hm
  · rw [pick_of_not_mem v opts hm]
    obtain ⟨o, os, rfl⟩ := List.exists_cons_of_ne_nil h
    simp

/-- Entries whose `Info()` failed contribute nothing: the row list equals
the one built from the metadata-bearing entries alone. -/
theorem buildRows_filter_isSome : ∀ (rel q : Str) (entries : List dirEntry),
    buildRows rel q entries = buildRows rel q (entries.filter (fun e => e.info.isSome)) := by
  intro rel q entries
  induction entries with
  | nil => rfl
  | cons e es ih =>
    cases hinfo : e.info with
    | none => simp [buildRows, hinfo, List.filter_cons, ih]
    | some szmt =>
      have hsome : (fun e : dirEntry => e.info.isSome) e = true := by simp [hinfo]
      rw [List.filter_cons, if_pos hsome]
      cases szmt with
      | mk sz mt => simp only [buildRows, hinfo, ih]

/-- Every produced row comes from some entry, carrying its name and the
joined relative path. -/
theorem mem_buildRows : ∀ (rel q : Str) (entries : List dirEntry) (r : fileRow),
    r ∈ buildRows rel q entries → ∃ e ∈ entries, r.Name = e.name ∧ r.RelPath = goJoin rel e.name := by
  intro rel q entries
  induction entries with
  | nil => intro r hr; exact absurd hr (by simp [buildRows])
  | cons e es ih =>
    intro r hr
    cases hinfo : e.info with
    | none =>
      simp only [buildRows, hinfo] at hr
      obtain ⟨e', he', h⟩ := ih r hr
      exact ⟨e', List.mem_cons_of_mem _ he', h⟩
    | some szmt =>
      cases szmt with
      | mk sz mt =>
        simp only [buildRows, hinfo] at hr
        by_cases hc : (decide (q = []) || strContains (toLowerStr (mkRow rel e sz mt).Name) (toLowerStr q)) = true
        · rw [if_pos hc] at hr
          rcases List.mem_cons.mp hr with rfl | h
          · exact ⟨e, by simp, rfl, rfl⟩
          · obtain ⟨e', he', h2⟩ := ih r h
            exact ⟨e', List.mem_cons_of_mem _ he', h2⟩
        · rw [if_neg hc] at hr
          obtain ⟨e', he', h2⟩ := ih r hr
          exact ⟨e', List.mem_cons_of_mem _ he', h2⟩

/-- Whatever `isWithin` accepts satisfies the canonical containment
disjunction. -/
theorem isWithin_contained (cwd q root : Str) (hw : isWithin cwd q root = true) :
    goClean (goAbs cwd q) = goClean (goAbs cwd root) ∨
    (goClean (goAbs cwd root) ++ ['/']) <+: goClean (goAbs cwd q) := by
  simp only [isWithin] at hw
  rw [Bool.or_eq_true] at hw
  rcases hw with hpre | heq
  · rw [ List.isPrefixOf_iff_prefix] at hpre
    rcases append_sep_cases hpre with heq2 | hpre2
    · exact Or.inl heq2
    · exact Or.inr hpre2
  · exact Or.inl (eq_of_beq heq)

/-- A successful `listResolve` passed `isWithin` on the returned absolute
path. -/
theorem listResolve_isWithin (cwd root p rel abs : Str)
    (h : listResolve cwd root p = some (rel, abs)) : isWithin cwd abs root = true := by
  simp only [listResolve] at h
  split at h <;> split at h <;>
    first
      | (rw [Option.some.injEq, Prod.mk.injEq] at h
         obtain ⟨h1, h2⟩ := h
         subst h2
         assumption)
      | exact absurd h (by simp)

/-- C1: every accepted resolution of a user path against the root is
confined — the canonicalized result equals the canonicalized root or has
`root + "/"` as a string prefix; every other candidate is rejected before
any directory is read. -/
theorem c1_path_confinement (cwd root p rel abs : Str)
    (h : listResolve cwd root p = some (rel, abs)) :
    goClean (goAbs cwd abs) = goClean (goAbs cwd root) ∨
    (goClean (goAbs cwd root) ++ ['/']) <+: goClean (goAbs cwd abs) := by
  have hw : isWithin cwd abs root = true := listResolve_isWithin cwd root p rel abs h
  exact isWithin_contained cwd abs root hw

theorem c1_path_confinement_witness :
    listResolve "/".data "/data".data "docs".data = some ("docs".data, "/data/docs".data) ∧
    (goClean (goAbs "/".data "/data/docs".data) = goClean (goAbs "/".data "/data".data) ∨
     (goClean (goAbs "/".data "/data".data) ++ ['/']) <+: goClean (goAbs "/".data "/data/docs".data)) :=
  ⟨by decide, c1_path_confinement "/".data "/data".data "docs".data "docs".data "/data/docs".data (by decide)⟩

/-- C2: evaluating the embedded sort at the claim's own example — entries
`dirA (directory, 100)`, `fileB (file, 1)`, `fileZ (file, 50)` under
`sort=size, order=desc` — yields `[fileZ, fileB, dirA]` and NOT the
`[dirA, fileZ, fileB]` the claim requires: `return !less` also negates the
directory-first tie-break, so descending order puts every file before
every directory, contradicting the claim (and the source's own comment
`// sort (folders first for name/size)`). -/
theorem c2_desc_negates_dir_first :
    sortRows (rowLess "size".data "desc".data)
      [⟨"dirA".data, "dirA".data, true, 100, 0⟩,
       ⟨"fileB".data, "fileB".data, false, 1, 0⟩,
       ⟨"fileZ".data, "fileZ".data, false, 50, 0⟩] =
      [⟨"fileZ".data, "fileZ".data, false, 50, 0⟩,
       ⟨"fileB".data, "fileB".data, false, 1, 0⟩,
       ⟨"dirA".data, "dirA".data, true, 100, 0⟩] ∧
    sortRows (rowLess "size".data "desc".data)
      [⟨"dirA".data, "dirA".data, true, 100, 0⟩,
       ⟨"fileB".data, "fileB".data, false, 1, 0⟩,
       ⟨"fileZ".data, "fileZ".data, false, 50, 0⟩] ≠
      [⟨"dirA".data, "dirA".data, true, 100, 0⟩,
       ⟨"fileZ".data, "fileZ".data, false, 50, 0⟩,
       ⟨"fileB".data, "fileB".data, false, 1, 0⟩] := by decide

/-- C3 counterexample: a listing whose directory read fails because the
path does not exist surfaces with the same HTTP 500 server-error status as
a permission failure — not as a distinct not-found (404) outcome, contrary
to the claim. -/
theorem c3_errors_not_distinguishable :
    statusOf (listHandler "/".data "/data".data (fun _ => .error .notExist) [] [] [] []) =
      statusOf (listHandler "/".data "/data".data (fun _ => .error .permission) [] [] [] []) ∧
    statusOf (listHandler "/".data "/data".data (fun _ => .error .notExist) [] [] [] []) ≠ 404 ∧
    statusOf (listHandler "/".data "/data".data (fun _ => .error .notExist) [] [] [] []) = 500 := by
  decide

/-- C3 amended: every failure of the directory read itself — not-exist,
not-a-directory, permission, or I/O — surfaces as the single server-error
outcome (HTTP 500) carrying the underlying error; `listHandler` has no
distinct not-found outcome. -/
theorem c3_amended_single_server_error (cwd root pathQ qR sQ oQ rel abs : Str)
    (readDir : Str → Except readDirErr (List dirEntry)) (e : readDirErr)
    (hres : listResolve cwd root pathQ = some (rel, abs))
    (hread : readDir abs = .error e) :
    listHandler cwd root readDir pathQ qR sQ oQ = .serverError e ∧
    statusOf (listHandler cwd root readDir pathQ qR sQ oQ) = 500 := by
  constructor
  · simp only [listHandler, hres, hread]
  · simp only [listHandler, hres, hread, statusOf]

theorem c3_amended_single_server_error_witness :
    listHandler "/".data "/data".data (fun _ => .error .permission) [] [] [] [] =
      .serverError .permission ∧
    statusOf (listHandler "/".data "/data".data (fun _ => .error .permission) [] [] [] []) = 500 :=
  c3_amended_single_server_error "/".data "/data".data [] [] [] [] [] "/data".data
    (fun _ => .error .permission) .permission (by decide) rfl

/-- C4: with every child's metadata available, the listing keeps an entry
iff the query is empty or the lowercased name contains the lowercased
query as a substring — the kept names are exactly the filter of the input
names by that predicate, in order. -/
theorem c4_case_insensitive_filter (rel q : Str) : ∀ (entries : List dirEntry),
    (∀ e ∈ entries, e.info.isSome) →
    (buildRows rel q entries).map fileRow.Name =
      (entries.filter (fun e => specKeep q e.name)).map dirEntry.name := by
  intro entries
  induction entries with
  | nil => intro; rfl
  | cons e es ih =>
    intro hinfo
    have he := hinfo e (by simp)
    obtain ⟨szmt, hsome⟩ := Option.isSome_iff_exists.mp he
    have ihh := ih (fun x hx => hinfo x (List.mem_cons_of_mem _ hx))
    cases szmt with
    | mk sz mt =>
      simp only [buildRows, hsome, List.filter_cons]
      by_cases hc : specKeep q e.name = true
      · have hc' : (decide (q = []) || strContains (toLowerStr (mkRow rel e sz mt).Name) (toLowerStr q)) = true := hc
        rw [if_pos hc', if_pos hc]
        simp only [List.map_cons, ihh]
        rfl
      · have hc' : ¬((decide (q = []) || strContains (toLowerStr (mkRow rel e sz mt).Name) (toLowerStr q)) = true) := hc
        rw [if_neg hc', if_neg hc]
        exact ihh

theorem c4_case_insensitive_filter_witness :
    (buildRows [] "RE".data
      [⟨"Readme.txt".data, false, some (10, 0)⟩,
       ⟨"score.csv".data, false, some (20, 0)⟩,
       ⟨"docs".data, true, some (0, 0)⟩]).map fileRow.Name =
      ([⟨"Readme.txt".data, false, some (10, 0)⟩,
        ⟨"score.csv".data, false, some (20, 0)⟩,
        ⟨"docs".data, true, some (0, 0)⟩].filter (fun e => specKeep "RE".data e.name)).map dirEntry.name ∧
    (buildRows [] "RE".data
      [⟨"Readme.txt".data, false, some (10, 0)⟩,
       ⟨"score.csv".data, false, some (20, 0)⟩,
       ⟨"docs".data, true, some (0, 0)⟩]).map fileRow.Name =
      ["Readme.txt".data, "score.csv".data] :=
  ⟨c4_case_insensitive_filter [] "RE".data _ (by decide), by decide⟩

/-- C5: the empty relative path yields no breadcrumbs, and a path joined
from `n` non-empty, non-`"."` segments yields exactly those `n` labels in
order, the i-th navigation path being the join of the first `i+1`
segments. -/
theorem c5_breadcrumbs :
    crumbsFor [] = [] ∧
    ∀ segs : List Str, segs ≠ [] → (∀ s ∈ segs, s ≠ [] ∧ s ≠ ['.'] ∧ '/' ∉ s) →
      (crumbsFor (joinSlash segs)).map crumb.Name = segs ∧
      (crumbsFor (joinSlash segs)).map crumb.Path = specPaths segs := by
  refine ⟨rfl, ?_⟩
  intro segs hne hgood
  obtain ⟨s, rest, rfl⟩ := List.exists_cons_of_ne_nil hne
  have hs := hgood s (by simp)
  have hrest : ∀ t ∈ rest, t ≠ [] ∧ t ≠ ['.'] :=
    fun t ht => ⟨(hgood t (List.mem_cons_of_mem _ ht)).1, (hgood t (List.mem_cons_of_mem _ ht)).2.1⟩
  have hjne : joinSlash (s :: rest) ≠ [] := joinSlash_ne_nil s rest hs.1
  have hsplit : splitSlash (joinSlash (s :: rest)) = s :: rest :=
    splitSlash_joinSlash _ (by simp) (fun t ht => (hgood t ht).2.2)
  have hcrumbs : crumbsFor (joinSlash (s :: rest)) = crumbsForAux [] (s :: rest) := by
    rw [crumbsFor, if_neg hjne, hsplit]
  have hcond : ¬(s = [] ∨ s = ['.']) := by
    rintro (h | h)
    · exact hs.1 h
    · exact hs.2.1 h
  have hstep : crumbsForAux [] (s :: rest) = ⟨s, s⟩ :: crumbsForAux s rest := by
    simp [crumbsForAux, if_neg hcond]
  obtain ⟨ihn, ihp⟩ := crumbsForAux_spec rest s hs.1 hrest
  rw [hcrumbs, hstep]
  constructor
  · simp [ihn]
  · simp only [List.map_cons, ihp, specPaths_cons]

theorem c5_breadcrumbs_witness :
    (crumbsFor (joinSlash ["a".data, "b".data, "c".data])).map crumb.Name =
      ["a".data, "b".data, "c".data] ∧
    (crumbsFor (joinSlash ["a".data, "b".data, "c".data])).map crumb.Path =
      specPaths ["a".data, "b".data, "c".data] ∧
    (crumbsFor "a/b/c".data).map crumb.Path = ["a".data, "a/b".data, "a/b/c".data] :=
  ⟨(c5_breadcrumbs.2 ["a".data, "b".data, "c".data] (by decide) (by decide)).1,
   (c5_breadcrumbs.2 ["a".data, "b".data, "c".data] (by decide) (by decide)).2,
   by decide⟩

/-- C6: a confined download request whose target `Stat`s as a directory
streams nothing and redirects to the listing view of the same relative
path — it is neither a not-found nor any other error outcome. -/
theorem c6_dir_download_redirects (cwd root pathQ rel abs : Str) (stat : Str → Option statInfo)
    (hrel : rel = goClean (trimPrefixSlash pathQ))
    (habs : abs = goJoin root rel)
    (hin : isWithin cwd abs root = true)
    (hstat : stat abs = some ⟨true⟩) :
    downloadHandler cwd root stat pathQ = .redirectToListing rel := by
  subst hrel
  subst habs
  simp only [downloadHandler, hin, hstat, if_true]

theorem c6_dir_download_redirects_witness :
    downloadHandler "/".data "/data".data (fun _ => some ⟨true⟩) "docs".data =
      .redirectToListing "docs".data :=
  c6_dir_download_redirects "/".data "/data".data "docs".data "docs".data "/data/docs".data
    (fun _ => some ⟨true⟩) (by decide) (by decide) (by decide) rfl

/-- C7: a child whose metadata retrieval fails is omitted while all others
still appear — the row list equals the one built from the metadata-bearing
children alone — and a listing whose directory read succeeds always ends
in the OK outcome (HTTP 200), never in an error. -/
theorem c7_per_entry_soft_fail :
    (∀ (rel q : Str) (entries : List dirEntry),
      buildRows rel q entries = buildRows rel q (entries.filter (fun e => e.info.isSome))) ∧
    (∀ (cwd root pathQ qR sQ oQ rel abs : Str)
      (readDir : Str → Except readDirErr (List dirEntry)) (entries : List dirEntry),
      listResolve cwd root pathQ = some (rel, abs) → readDir abs = .ok entries →
      statusOf (listHandler cwd root readDir pathQ qR sQ oQ) = 200) := by
  constructor
  · exact buildRows_filter_isSome
  · intro cwd root pathQ qR sQ oQ rel abs readDir entries hres hread
    simp only [listHandler, hres, hread, statusOf]

theorem c7_per_entry_soft_fail_witness :
    buildRows [] [] [⟨"good".data, false, some (5, 0)⟩, ⟨"bad".data, false, none⟩] =
      buildRows [] []
        ([⟨"good".data, false, some (5, 0)⟩,
          ⟨"bad".data, false, none⟩].filter (fun e => e.info.isSome)) ∧
    statusOf (listHandler "/".data "/data".data
      (fun _ => .ok [⟨"bad".data, false, none⟩]) [] [] [] []) = 200 :=
  ⟨c7_per_entry_soft_fail.1 [] [] _,
   c7_per_entry_soft_fail.2 "/".data "/data".data [] [] [] [] [] "/data".data
     (fun _ => .ok [⟨"bad".data, false, none⟩]) [⟨"bad".data, false, none⟩] (by decide) rfl⟩

/-- C8 counterexample: the input `"SIZE"` lies outside the enumerated set
of strings, yet the effective sort key is `"size"`, not the claimed
fallback `"name"` — `pick` lowercases before comparing. -/
theorem c8_counterexample_uppercase_input :
    "SIZE".data ∉ ["name".data, "size".data, "mod".data] ∧
    pick "SIZE".data ["name".data, "size".data, "mod".data] = "size".data ∧
    "size".data ≠ "name".data := by decide

/-- C8 amended: every input whose LOWERCASED form is outside the
enumerated set falls back to the default (`name`, resp. `asc`); `pick` is
total, so no input is an error. -/
theorem c8_amended_fallback (v w : Str)
    (hv : toLowerStr v ∉ ["name".data, "size".data, "mod".data])
    (hw : toLowerStr w ∉ ["asc".data, "desc".data]) :
    pick v ["name".data, "size".data, "mod".data] = "name".data ∧
    pick w ["asc".data, "desc".data] = "asc".data := by
  rw [pick_of_not_mem v _ hv, pick_of_not_mem w _ hw]
  exact ⟨rfl, rfl⟩

theorem c8_amended_fallback_witness :
    pick "BOGUS".data ["name".data, "size".data, "mod".data] = "name".data ∧
    pick "other".data ["asc".data, "desc".data] = "asc".data :=
  c8_amended_fallback "BOGUS".data "other".data (by decide) (by decide)

/-- C9 counterexample: the request path `"../data/x"` against root
`"/data"` passes the containment check (it resolves inside the root), yet
the produced entry `RelPath` is `"../data/x/f"`, which contains a `".."`
segment — the claimed invariant fails for a listing that passed the
containment check. -/
theorem c9_counterexample_dotdot_relpath :
    listResolve "/".data "/data".data "../data/x".data =
      some ("../data/x".data, "/data/x".data) ∧
    (buildRows "../data/x".data [] [⟨"f".data, false, some (0, 0)⟩]).map fileRow.RelPath =
      ["../data/x/f".data] ∧
    ['.', '.'] ∈ splitSlash "../data/x/f".data := by decide

/-- C9 amended: every entry `RelPath` equals the listing's relative path
joined with the entry name, and — provided the cleaned request path itself
neither begins with a separator nor contains a `".."` segment (which the
containment check alone does not guarantee) — the `RelPath` likewise never
begins with a separator and contains no `".."` segment. -/
theorem c9_amended_relpath_invariant (rel q : Str) (entries : List dirEntry)
    (hrel : isAbsPath rel = false) (hdd : noDotDot rel)
    (hnames : ∀ e ∈ entries, properSeg e.name) :
    ∀ r ∈ buildRows rel q entries,
      isAbsPath r.RelPath = false ∧ noDotDot r.RelPath ∧ r.RelPath = goJoin rel r.Name := by
  intro r hr
  obtain ⟨e, he, hname, hpath⟩ := mem_buildRows rel q entries r hr
  have hgood := goJoin_seg_good rel e.name hrel hdd (hnames e he)
  rw [hpath, hname]
  exact ⟨hgood.1, hgood.2, rfl⟩

theorem c9_amended_relpath_invariant_witness :
    isAbsPath (⟨"f".data, "a/b/f".data, false, 0, 0⟩ : fileRow).RelPath = false ∧
    noDotDot (⟨"f".data, "a/b/f".data, false, 0, 0⟩ : fileRow).RelPath ∧
    (⟨"f".data, "a/b/f".data, false, 0, 0⟩ : fileRow).RelPath =
      goJoin "a/b".data (⟨"f".data, "a/b/f".data, false, 0, 0⟩ : fileRow).Name :=
  c9_amended_relpath_invariant "a/b".data [] [⟨"f".data, false, some (0, 0)⟩]
    (by decide) (by decide) (by decide)
    ⟨"f".data, "a/b/f".data, false, 0, 0⟩ (by decide)

/-- C10: `pick` matches case-insensitively — a lowercased input found
among the options is returned (so `order=DESC` selects descending), and
the echoed value is always one of the enumerated lowercase options. -/
theorem c10_sort_order_case_insensitive :
    (∀ (v : Str) (opts : List Str), toLowerStr v ∈ opts → pick v opts = toLowerStr v) ∧
    (∀ (v : Str) (opts : List Str), opts ≠ [] → pick v opts ∈ opts) ∧
    pick "DESC".data ["asc".data, "desc".data] = "desc".data := by
  refine ⟨pick_of_mem, pick_mem, ?_⟩
  decide

theorem c10_sort_order_case_insensitive_witness :
    pick "MOD".data ["name".data, "size".data, "mod".data] = toLowerStr "MOD".data ∧
    pick "zzz".data ["asc".data, "desc".data] ∈ ["asc".data, "desc".data] :=
  ⟨c10_sort_order_case_insensitive.1 "MOD".data ["name".data, "size".data, "mod".data] (by decide),
   c10_sort_order_case_insensitive.2.1 "zzz".data ["asc".data, "desc".data] (by decide)⟩
end FileBrowser
